import Mathlib

/-!
Verification of the PrMers proof-set and backup subsystems.

Shallow embedding of `src/core/ProofSet.cpp` and `src/core/BackupManager.cpp`.
Machine integers (`uint32_t`, `uint64_t`, `mpz_class`) are modelled as `Nat`;
all quantities involved (spans, points, word values, residues) stay far below
`2^32` respectively within the mathematical integer range of `mpz_class`, so
no wrap-around is lost by this modelling.
-/

namespace PrMers

/-! ### Checkpoint schedule (ProofSet constructor and isInPoints) -/

/-- The sequence of span values used by `ProofSet::ProofSet` and
`ProofSet::isInPoints`: the loop variable `span` starts at `(E + 1) / 2` and is
updated by `span = (span + 1) / 2` at the end of each level. -/
def spanSeq (E : Nat) : Nat → Nat
  | 0 => (E + 1) / 2
  | i + 1 => (spanSeq E i + 1) / 2

/-- The list of the first `power` spans, in the order the loops visit them. -/
def spans (E power : Nat) : List Nat :=
  (List.range power).map (spanSeq E)

/-- The `points` vector of the constructor just after the doubling loop:
it starts as `[0]`, and level `p` appends `points[i] + span_p` for every
existing entry (`ProofSet.cpp` lines 69-74). -/
def pointsLevels (E : Nat) : Nat → List Nat
  | 0 => [0]
  | p + 1 => pointsLevels E p ++ (pointsLevels E p).map (· + spanSeq E p)

/-- The `points` vector after `points.front() = E` and `std::sort`
(`ProofSet.cpp` lines 79-80); the front of the raw vector is always `0`.
`std::sort` sorts ascending, modelled by `List.insertionSort (· ≤ ·)`. -/
def proofPoints (E power : Nat) : List Nat :=
  List.insertionSort (· ≤ ·) (E :: (pointsLevels E power).tail)

/-- The vector including the `uint32_t(-1)` guard element appended at
`ProofSet.cpp` line 85. -/
def proofPointsWithGuard (E power : Nat) : List Nat :=
  proofPoints E power ++ [4294967295]

/-- The walk of `ProofSet::isInPoints` (lines 143-151), with the successive
span values supplied as a list: at each step, if `k > start + span` advance
`start`, if `k == start + span` succeed, otherwise keep `start`; the span list
for a real call is `spans E power`. -/
def walkSpans (k : Nat) : List Nat → Nat → Bool
  | [], _ => false
  | s :: rest, start =>
    if start + s < k then walkSpans k rest (start + s)
    else if k = start + s then true
    else walkSpans k rest start

/-- `ProofSet::isInPoints(E, power, k)` (lines 141-153): special-case `k == E`,
then walk down with `span` running through `spanSeq E 0, …, spanSeq E
(power-1)`. -/
def isInPoints (E power k : Nat) : Bool :=
  if k = E then true else walkSpans k (spans E power) 0

/-! ### Mersenne arithmetic (mersenneReduce, mersennePowMod) -/

/-- `ProofSet::mersenneReduce` (lines 321-348).  The guard
`mpz_sizeinbase(x, 2) <= E + 1` holds exactly when `x < 2 ^ (E + 1)`
(`mpz_sizeinbase` returns the binary digit count, which is `1` for `0`).
`x & (2^E - 1)` is `x &&& (2 ^ E - 1)` and `x >> E` is `x >>> E`. -/
def mersenneReduce (x E : Nat) : Nat :=
  if x < 2 ^ (E + 1) then x
  else
    let m := 2 ^ E - 1
    let xlo := x &&& m
    let xhi := x >>> E
    let r := xlo + xhi
    if m ≤ r then r - m else r

/-- The `while (exp > 0)` loop of `ProofSet::mersennePowMod` (lines 368-381).
`exp` is a `uint64_t`, so the loop runs at most 64 iterations; the fuel
argument is therefore 64 at the call site. -/
def mersennePowModLoop (E : Nat) : Nat → Nat → Nat → Nat → Nat
  | 0, result, _, _ => result
  | fuel + 1, result, square, e =>
    if e = 0 then result
    else
      let result' := if e % 2 = 1 then mersenneReduce (result * square) E else result
      let e' := e / 2
      let square' := if 0 < e' then mersenneReduce (square * square) E else square
      mersennePowModLoop E fuel result' square' e'

/-- `ProofSet::mersennePowMod` (lines 352-384). -/
def mersennePowMod (base e E : Nat) : Nat :=
  if e = 0 then 1
  else if e = 1 then mersenneReduce base E
  else mersennePowModLoop E 64 1 (mersenneReduce base E) e

/-! ### Residue codec (convertToGMP, convertFromGMP) -/

/-- `ProofSet::convertFromGMP` (lines 386-397): a zero-initialized vector of
`(E + 31) / 32` 32-bit words filled by `mpz_export` least-significant word
first; word `i` of the little-endian base-`2^32` expansion of `x` is
`x / 2^(32 i) % 2^32`. -/
def convertFromGMP (E x : Nat) : List Nat :=
  (List.range ((E + 31) / 32)).map (fun i => x / 2 ^ (32 * i) % 2 ^ 32)

/-- `ProofSet::convertToGMP` (lines 312-317): `mpz_import` least-significant
word first over 32-bit words. -/
def convertToGMP (words : List Nat) : Nat :=
  words.foldr (fun w acc => w + 2 ^ 32 * acc) 0

/-- The guard of the ZeroMiddle check in `ProofSet::computeProof` (lines
285-289): the level result is converted with `convertFromGMP` and the
exception is thrown iff the resulting vector is *empty*. -/
def zeroMiddleCheckFires (E : Nat) (middle : Nat) : Bool :=
  (convertFromGMP E middle).isEmpty

/-! ### Specification-side notions for the schedule proof -/

/-- `IsSubSum l m` says `m` is the sum of some subset of the entries of `l`.
The raw `points` vector is exactly the family of such sums over the span
list. -/
def IsSubSum : List Nat → Nat → Prop
  | [], m => m = 0
  | s :: rest, m => IsSubSum rest m ∨ ∃ m', IsSubSum rest m' ∧ m = s + m'

/-- Every entry of the list bounds the sum of the entries after it.  This is
the precondition under which the greedy walk of `isInPoints` is complete. -/
def TailBounded : List Nat → Prop
  | [] => True
  | s :: rest => rest.sum ≤ s ∧ TailBounded rest

/-- `HalvChain s l` says `l` is a chain `s, ⌈s/2⌉, ⌈⌈s/2⌉/2⌉, …` of successive
ceiling halvings starting at `s`; the span list of the constructor is such a
chain starting at `(E + 1) / 2`. -/
def HalvChain : Nat → List Nat → Prop
  | _, [] => True
  | s, a :: rest => a = s ∧ HalvChain ((s + 1) / 2) rest

/-! ### CRC-32 (modelled from the spec) and the snapshot store -/

/-- Modelled from the spec: the CRC-32 routine `computeCRC32` lives in
`util/Crc32.hpp`, which is not part of the provided sources.  Spec §6 fixes it
as the standard CRC-32: IEEE 802.3 polynomial `0xEDB88320` (reflected),
initial value `0xFFFFFFFF`, final XOR `0xFFFFFFFF`, processed byte by byte. -/
def crc32Poly : Nat := 0xEDB88320

/-- One bit step of the reflected CRC-32: shift right, conditionally XOR the
polynomial. -/
def crc32BitStep (c : Nat) : Nat :=
  if c % 2 = 1 then (c / 2) ^^^ crc32Poly else c / 2

/-- `n` bit steps. -/
def crc32Bits : Nat → Nat → Nat
  | 0, c => c
  | n + 1, c => crc32Bits n (crc32BitStep c)

/-- Absorb one byte: XOR it into the register, then 8 bit steps. -/
def crc32ByteStep (c b : Nat) : Nat := crc32Bits 8 (c ^^^ b)

/-- Run the register over a byte string. -/
def crc32Run (c : Nat) (bs : List Nat) : Nat := bs.foldl crc32ByteStep c

/-- Modelled from the spec: CRC-32 of a byte string (init `0xFFFFFFFF`,
final XOR `0xFFFFFFFF`). -/
def crc32 (bs : List Nat) : Nat := crc32Run 0xFFFFFFFF bs ^^^ 0xFFFFFFFF

/-- Little-endian byte serialization of one 32-bit word, as written by
`file.write` on the word array. -/
def bytesOfWord (w : Nat) : List Nat :=
  [w % 256, w / 256 % 256, w / 256 ^ 2 % 256, w / 256 ^ 3 % 256]

/-- Byte serialization of a word vector. -/
def bytesOfWords (ws : List Nat) : List Nat := (ws.map bytesOfWord).flatten

/-- Value of four little-endian bytes (used both for reading the stored CRC
and for rebuilding words from the byte stream). -/
def wordOfBytes4 (b0 b1 b2 b3 : Nat) : Nat :=
  b0 + 256 * b1 + 256 ^ 2 * b2 + 256 ^ 3 * b3

/-- Regroup a byte stream into 32-bit words, 4 bytes at a time. -/
def wordsOfBytes : List Nat → List Nat
  | b0 :: b1 :: b2 :: b3 :: rest => wordOfBytes4 b0 b1 b2 b3 :: wordsOfBytes rest
  | _ => []

/-- The error conditions of `ProofSet::load` (lines 175-210), in the order
the code tests them. -/
inductive LoadError
  | notCheckpoint
  | shortCrcRead
  | shortDataRead
  | crcMismatch
deriving DecidableEq

/-- `ProofSet::load(iter)` as a function of the snapshot file's byte
contents: require `shouldCheckpoint`, read a 4-byte CRC, read exactly
`(E + 31) / 32` 32-bit words, recompute the CRC over those word bytes and
compare.  Bytes beyond the prefix are never read. -/
def loadSnapshot (E power k : Nat) (file : List Nat) : Except LoadError (List Nat) :=
  if isInPoints E power k = false then .error .notCheckpoint
  else
    match file with
    | b0 :: b1 :: b2 :: b3 :: rest =>
      if rest.length < 4 * ((E + 31) / 32) then .error .shortDataRead
      else
        let body := rest.take (4 * ((E + 31) / 32))
        if crc32 body ≠ wordOfBytes4 b0 b1 b2 b3 then .error .crcMismatch
        else .ok (wordsOfBytes body)
    | _ => .error .shortCrcRead

/-- `ProofSet::save(iter, words)` (lines 98-121) as the byte contents it
writes: a no-op (`none`) unless `shouldCheckpoint(iter)`, otherwise the CRC
of the word bytes followed by the word bytes. -/
def saveSnapshot (E power k : Nat) (words : List Nat) : Option (List Nat) :=
  if isInPoints E power k = false then none
  else some (bytesOfWord (crc32 (bytesOfWords words)) ++ bytesOfWords words)

/-! ### BackupManager state load/save -/

/-- Result of `BackupManager::loadState`: the returned resume iteration and
the contents of the host vector `x`. -/
structure BackupState where
  resume : Nat
  x : List Nat
deriving DecidableEq

/-- The fresh-state initialization of `BackupManager::loadState` (lines
152-155): `x.assign(x.size(), 0)` then `x[0] = (mode_ == "prp") ? 3 : 4`. -/
def seedWords (mode : String) (n : Nat) : List Nat :=
  (List.replicate n 0).set 0 (if mode = "prp" then 3 else 4)

/-- `mersIn.read` into `x` (line 139): the file bytes overwrite the prefix of
`x`; entries past the file's end keep their previous contents (the read is
not length-checked). -/
def readInto (x d : List Nat) : List Nat :=
  d.take x.length ++ x.drop (min d.length x.length)

/-- `BackupManager::loadState` (lines 123-159) as a function of the parsed
loop file (`none` = absent, empty or unparsable; `some r` = stored value `r`)
and of the `.mers` file (`none` = unreadable).  With a positive loop value and
a readable `.mers` file the vector is overwritten from the file; with an
unreadable `.mers` file a warning is printed and `x` is left as it was; in all
other cases the state is seeded fresh. -/
def loadState (mode : String) (loopVal : Option Nat) (mers : Option (List Nat))
    (x : List Nat) : BackupState :=
  match loopVal with
  | some r =>
    if 0 < r then
      match mers with
      | some d => ⟨r, readInto x d⟩
      | none => ⟨r, x⟩
    else ⟨0, seedWords mode x.length⟩
  | none => ⟨0, seedWords mode x.length⟩

/-- The observable file events of `BackupManager::saveState` (lines 162-211),
in program order.  A failed stream open is reported on stderr and skipped;
nothing is thrown. -/
inductive SaveEvent
  | writeMers (content : List Nat)
  | errMers
  | writeLoop (val : Nat)
  | errLoop
deriving DecidableEq

/-- `true` for the events produced by the `.mers` write attempt. -/
def SaveEvent.isMersEvent : SaveEvent → Bool
  | .writeMers _ => true
  | .errMers => true
  | _ => false

/-- `true` for the events produced by the loop-file write attempt. -/
def SaveEvent.isLoopEvent : SaveEvent → Bool
  | .writeLoop _ => true
  | .errLoop => true
  | _ => false

/-- `BackupManager::saveState` in trace form: first the `.mers` snapshot
write (or its stderr report), then the loop-file write of `iter + 1` (or its
stderr report).  `mersOk`/`loopOk` say whether the respective `ofstream`
opened successfully.  The P-1 exponent dump is omitted (not claim-relevant). -/
def saveStateTrace (mersOk loopOk : Bool) (x : List Nat) (iter : Nat) : List SaveEvent :=
  (if mersOk then [SaveEvent.writeMers x] else [SaveEvent.errMers])
    ++ (if loopOk then [SaveEvent.writeLoop (iter + 1)] else [SaveEvent.errLoop])

/-! ### Lemmas: checkpoint schedule -/

theorem spanSeq_pos (E : Nat) (hE : 1 ≤ E) : ∀ i, 0 < spanSeq E i := by
  intro i
  induction i with
  | zero => simp only [spanSeq]; omega
  | succ i ih => simp only [spanSeq]; omega

theorem spans_succ (E p : Nat) : spans E (p + 1) = spans E p ++ [spanSeq E p] := by
  simp [spans, List.range_succ]

theorem spans_pos (E : Nat) (hE : 1 ≤ E) (power : Nat) :
    ∀ s ∈ spans E power, 0 < s := by
  intro s hs
  simp only [spans, List.mem_map] at hs
  obtain ⟨i, _, rfl⟩ := hs
  exact spanSeq_pos E hE i

theorem isSubSum_zero : ∀ l : List Nat, IsSubSum l 0 := by
  intro l
  induction l with
  | nil => rfl
  | cons s rest ih => exact Or.inl ih

theorem isSubSum_le_sum : ∀ (l : List Nat) (m : Nat), IsSubSum l m → m ≤ l.sum := by
  intro l
  induction l with
  | nil =>
    intro m hm
    simp [IsSubSum] at hm
    simp [hm]
  | cons s rest ih =>
    intro m hm
    rcases hm with hm | ⟨m', hm', rfl⟩
    · have := ih m hm
      simp [List.sum_cons]
      omega
    · have := ih m' hm'
      simp [List.sum_cons]
      omega

theorem isSubSum_append_singleton (s : Nat) :
    ∀ (l : List Nat) (m : Nat),
      IsSubSum (l ++ [s]) m ↔ IsSubSum l m ∨ ∃ y, IsSubSum l y ∧ m = y + s := by
  intro l
  induction l with
  | nil =>
    intro m
    simp only [List.nil_append, IsSubSum]
    constructor
    · rintro (h | ⟨m', hm', rfl⟩)
      · exact Or.inl h
      · exact Or.inr ⟨m', hm', by omega⟩
    · rintro (h | ⟨y, hy, rfl⟩)
      · exact Or.inl h
      · exact Or.inr ⟨y, hy, by omega⟩
  | cons a l ih =>
    intro m
    simp only [List.cons_append, IsSubSum]
    constructor
    · rintro (h | ⟨m', hm', rfl⟩)
      · rcases (ih m).mp h with h2 | ⟨y, hy, rfl⟩
        · exact Or.inl (Or.inl h2)
        · exact Or.inr ⟨y, Or.inl hy, rfl⟩
      · rcases (ih m').mp hm' with h2 | ⟨y, hy, rfl⟩
        · exact Or.inl (Or.inr ⟨m', h2, rfl⟩)
        · exact Or.inr ⟨a + y, Or.inr ⟨y, hy, rfl⟩, by omega⟩
    · rintro ((h | ⟨m', hm', rfl⟩) | ⟨y, (hy | ⟨m', hm', rfl⟩), rfl⟩)
      · exact Or.inl ((ih m).mpr (Or.inl h))
      · exact Or.inr ⟨m', (ih m').mpr (Or.inl hm'), rfl⟩
      · exact Or.inl ((ih (y + s)).mpr (Or.inr ⟨y, hy, rfl⟩))
      · refine Or.inr ⟨m' + s, (ih (m' + s)).mpr (Or.inr ⟨m', hm', rfl⟩), by omega⟩

theorem mem_pointsLevels (E : Nat) :
    ∀ p m, m ∈ pointsLevels E p ↔ IsSubSum (spans E p) m := by
  intro p
  induction p with
  | zero =>
    intro m
    simp [pointsLevels, spans, IsSubSum]
  | succ p ih =>
    intro m
    rw [spans_succ, isSubSum_append_singleton]
    simp only [pointsLevels, List.mem_append, List.mem_map]
    constructor
    · rintro (h | ⟨y, hy, rfl⟩)
      · exact Or.inl ((ih m).mp h)
      · exact Or.inr ⟨y, (ih y).mp hy, rfl⟩
    · rintro (h | ⟨y, hy, rfl⟩)
      · exact Or.inl ((ih m).mpr h)
      · exact Or.inr ⟨y, (ih y).mpr hy, rfl⟩

theorem pointsLevels_length (E : Nat) : ∀ p, (pointsLevels E p).length = 2 ^ p := by
  intro p
  induction p with
  | zero => rfl
  | succ p ih =>
    simp only [pointsLevels, List.length_append, List.length_map, ih]
    rw [pow_succ]
    omega

theorem pointsLevels_eq_cons (E : Nat) :
    ∀ p, ∃ t, pointsLevels E p = 0 :: t := by
  intro p
  induction p with
  | zero => exact ⟨[], rfl⟩
  | succ p ih =>
    obtain ⟨t, ht⟩ := ih
    refine ⟨t ++ (0 :: t).map (· + spanSeq E p), ?_⟩
    show pointsLevels E p ++ (pointsLevels E p).map (· + spanSeq E p) = _
    rw [ht]
    rfl

theorem pointsLevels_tail_pos (E : Nat) (hE : 1 ≤ E) :
    ∀ p, ∀ x ∈ (pointsLevels E p).tail, 0 < x := by
  intro p
  induction p with
  | zero => intro x hx; simp [pointsLevels] at hx
  | succ p ih =>
    intro x hx
    obtain ⟨t, ht⟩ := pointsLevels_eq_cons E p
    have htail : (pointsLevels E (p + 1)).tail
        = t ++ (0 :: t).map (· + spanSeq E p) := by
      show (pointsLevels E p ++ (pointsLevels E p).map (· + spanSeq E p)).tail = _
      rw [ht]
      rfl
    rw [htail] at hx
    rcases List.mem_append.mp hx with h | h
    · have hxt : x ∈ (pointsLevels E p).tail := by rw [ht]; exact h
      exact ih x hxt
    · rcases List.mem_map.mp h with ⟨y, _, rfl⟩
      have := spanSeq_pos E hE p
      omega

theorem walkSpans_sound :
    ∀ (l : List Nat), (∀ s ∈ l, 0 < s) →
      ∀ k start, walkSpans k l start = true →
        ∃ m, IsSubSum l m ∧ 0 < m ∧ k = start + m := by
  intro l
  induction l with
  | nil => intro _ k start h; simp [walkSpans] at h
  | cons s rest ih =>
    intro hpos k start h
    have hs : 0 < s := hpos s (List.mem_cons_self s rest)
    have hrest : ∀ a ∈ rest, 0 < a := fun a ha => hpos a (List.mem_cons_of_mem s ha)
    unfold walkSpans at h
    split at h
    · obtain ⟨m, hm, hmpos, hk⟩ := ih hrest k (start + s) h
      exact ⟨s + m, Or.inr ⟨m, hm, rfl⟩, by omega, by omega⟩
    · split at h
      · rename_i hlt heq
        exact ⟨s, Or.inr ⟨0, isSubSum_zero rest, by omega⟩, hs, heq⟩
      · obtain ⟨m, hm, hmpos, hk⟩ := ih hrest k start h
        exact ⟨m, Or.inl hm, hmpos, hk⟩

theorem walkSpans_complete :
    ∀ (l : List Nat), TailBounded l →
      ∀ m k start, IsSubSum l m → 0 < m → k = start + m →
        walkSpans k l start = true := by
  intro l
  induction l with
  | nil =>
    intro _ m k start hm hmpos _
    simp [IsSubSum] at hm
    omega
  | cons s rest ih =>
    rintro ⟨hsum, htb⟩ m k start hm hmpos hk
    unfold walkSpans
    rcases hm with hm | ⟨m', hm', rfl⟩
    · have hle : m ≤ s := le_trans (isSubSum_le_sum rest m hm) hsum
      rcases lt_or_eq_of_le hle with hlt | rfl
      · rw [if_neg (by omega), if_neg (by omega)]
        exact ih htb m k start hm hmpos hk
      · rw [if_neg (by omega), if_pos (by omega)]
    · rcases Nat.eq_zero_or_pos m' with rfl | hm'pos
      · rw [if_neg (by omega), if_pos (by omega)]
      · rw [if_pos (by omega)]
        exact ih htb m' k (start + s) hm' hm'pos (by omega)

theorem halvChain_map (E : Nat) :
    ∀ (n i : Nat), HalvChain (spanSeq E i) ((List.range n).map fun j => spanSeq E (i + j)) := by
  intro n
  induction n with
  | zero => intro i; exact trivial
  | succ n ih =>
    intro i
    rw [List.range_succ_eq_map]
    simp only [List.map_cons, List.map_map]
    have hcomp : ((fun j => spanSeq E (i + j)) ∘ Nat.succ)
        = fun j => spanSeq E ((i + 1) + j) := by
      funext j
      show spanSeq E (i + (j + 1)) = spanSeq E ((i + 1) + j)
      congr 1
      omega
    refine ⟨by rw [Nat.add_zero], ?_⟩
    show HalvChain (spanSeq E (i + 1)) _
    rw [hcomp]
    exact ih (i + 1)

theorem halvChain_spans (E power : Nat) :
    HalvChain ((E + 1) / 2) (spans E power) := by
  have h := halvChain_map E power 0
  have hfun : ((List.range power).map fun j => spanSeq E (0 + j)) = spans E power := by
    unfold spans
    refine List.map_congr_left ?_
    intro j _
    rw [Nat.zero_add]
  rw [hfun] at h
  exact h

theorem tailBounded_of_halvChain :
    ∀ (l : List Nat) (s X : Nat), HalvChain s l → l.sum ≤ X → X ≤ 2 * s →
      TailBounded l := by
  intro l
  induction l with
  | nil => intro s X _ _ _; exact trivial
  | cons a rest ih =>
    rintro s X ⟨rfl, hc⟩ hsum hX
    have hsr : rest.sum ≤ a := by
      simp only [List.sum_cons] at hsum
      omega
    refine ⟨hsr, ?_⟩
    exact ih ((a + 1) / 2) a hc hsr (by omega)

theorem tailBounded_spans (E power : Nat) (h : (spans E power).sum ≤ E) :
    TailBounded (spans E power) :=
  tailBounded_of_halvChain (spans E power) ((E + 1) / 2) E
    (halvChain_spans E power) h (by omega)

/-! ### Lemmas: Mersenne arithmetic -/

theorem mersenneReduce_of_lt {x E : Nat} (h : x < 2 ^ (E + 1)) :
    mersenneReduce x E = x := by
  simp [mersenneReduce, h]

theorem mersenneReduce_modEq (x E : Nat) :
    mersenneReduce x E ≡ x [MOD 2 ^ E - 1] := by
  unfold mersenneReduce
  split
  · rfl
  · simp only [Nat.and_pow_two_sub_one_eq_mod, Nat.shiftRight_eq_div_pow]
    have hbase : x % 2 ^ E + x / 2 ^ E ≡ x [MOD 2 ^ E - 1] := by
      show (x % 2 ^ E + x / 2 ^ E) % (2 ^ E - 1) = x % (2 ^ E - 1)
      have hP : 1 ≤ 2 ^ E := Nat.one_le_two_pow
      have hqr : 2 ^ E * (x / 2 ^ E) + x % 2 ^ E = x := Nat.div_add_mod x (2 ^ E)
      have hmul : (2 ^ E - 1) * (x / 2 ^ E) = 2 ^ E * (x / 2 ^ E) - x / 2 ^ E :=
        Nat.sub_one_mul _ _
      have hq_le : x / 2 ^ E ≤ 2 ^ E * (x / 2 ^ E) := Nat.le_mul_of_pos_left _ hP
      have hx2 : x = (x % 2 ^ E + x / 2 ^ E) + (2 ^ E - 1) * (x / 2 ^ E) := by omega
      calc (x % 2 ^ E + x / 2 ^ E) % (2 ^ E - 1)
          = ((x % 2 ^ E + x / 2 ^ E) + (2 ^ E - 1) * (x / 2 ^ E)) % (2 ^ E - 1) := by
            rw [Nat.add_mul_mod_self_left]
        _ = x % (2 ^ E - 1) := by rw [← hx2]
    split
    · rename_i hle
      show (x % 2 ^ E + x / 2 ^ E - (2 ^ E - 1)) % (2 ^ E - 1) = x % (2 ^ E - 1)
      have h5 : x % 2 ^ E + x / 2 ^ E
          = (x % 2 ^ E + x / 2 ^ E - (2 ^ E - 1)) + (2 ^ E - 1) := by omega
      calc (x % 2 ^ E + x / 2 ^ E - (2 ^ E - 1)) % (2 ^ E - 1)
          = ((x % 2 ^ E + x / 2 ^ E - (2 ^ E - 1)) + (2 ^ E - 1)) % (2 ^ E - 1) :=
            (Nat.add_mod_right _ _).symm
        _ = (x % 2 ^ E + x / 2 ^ E) % (2 ^ E - 1) := by rw [← h5]
        _ = x % (2 ^ E - 1) := hbase
    · exact hbase

theorem mersennePowModLoop_modEq (E : Nat) :
    ∀ fuel e result square, e < 2 ^ fuel →
      mersennePowModLoop E fuel result square e
        ≡ result * square ^ e [MOD 2 ^ E - 1] := by
  intro fuel
  induction fuel with
  | zero =>
    intro e result square he
    have : e = 0 := by omega
    subst this
    simp only [mersennePowModLoop, pow_zero, mul_one]
    exact Nat.ModEq.refl _
  | succ fuel ih =>
    intro e result square he
    by_cases h0 : e = 0
    · subst h0
      simp only [mersennePowModLoop, if_pos rfl, pow_zero, mul_one]
      exact Nat.ModEq.refl _
    · have hstep : mersennePowModLoop E (fuel + 1) result square e
          = mersennePowModLoop E fuel
            (if e % 2 = 1 then mersenneReduce (result * square) E else result)
            (if 0 < e / 2 then mersenneReduce (square * square) E else square)
            (e / 2) := by
        simp [mersennePowModLoop, h0]
      have hlt : e / 2 < 2 ^ fuel := by
        have h2 : 2 ^ (fuel + 1) = 2 * 2 ^ fuel := by ring
        omega
      have hr : (if e % 2 = 1 then mersenneReduce (result * square) E else result)
          ≡ result * square ^ (e % 2) [MOD 2 ^ E - 1] := by
        by_cases hp : e % 2 = 1
        · rw [if_pos hp, hp, pow_one]
          exact mersenneReduce_modEq _ _
        · have hz : e % 2 = 0 := by omega
          rw [if_neg hp, hz, pow_zero, mul_one]
      have hs : (if 0 < e / 2 then mersenneReduce (square * square) E else square) ^ (e / 2)
          ≡ (square * square) ^ (e / 2) [MOD 2 ^ E - 1] := by
        by_cases hq : 0 < e / 2
        · rw [if_pos hq]
          exact (mersenneReduce_modEq _ _).pow _
        · have hz : e / 2 = 0 := by omega
          rw [hz, pow_zero, pow_zero]
      have hmain := ih (e / 2)
        (if e % 2 = 1 then mersenneReduce (result * square) E else result)
        (if 0 < e / 2 then mersenneReduce (square * square) E else square) hlt
      have hcomb : (result * square ^ (e % 2)) * (square * square) ^ (e / 2)
          = result * square ^ e := by
        have hsq : (square * square) ^ (e / 2) = square ^ (2 * (e / 2)) := by
          rw [pow_mul]; ring
        rw [hsq, mul_assoc, ← pow_add]
        have he2 : e % 2 + 2 * (e / 2) = e := by omega
        rw [he2]
      calc mersennePowModLoop E (fuel + 1) result square e
          = mersennePowModLoop E fuel _ _ (e / 2) := hstep
        _ ≡ (if e % 2 = 1 then mersenneReduce (result * square) E else result)
              * (if 0 < e / 2 then mersenneReduce (square * square) E else square) ^ (e / 2)
              [MOD 2 ^ E - 1] := hmain
        _ ≡ (result * square ^ (e % 2)) * (square * square) ^ (e / 2)
              [MOD 2 ^ E - 1] := Nat.ModEq.mul hr hs
        _ = result * square ^ e := hcomb

theorem mersennePowMod_modEq (base e E : Nat) (he : e < 2 ^ 64) :
    mersennePowMod base e E ≡ base ^ e [MOD 2 ^ E - 1] := by
  unfold mersennePowMod
  by_cases h0 : e = 0
  · subst h0
    simp only [if_pos rfl, pow_zero]
    exact Nat.ModEq.refl 1
  · by_cases h1 : e = 1
    · subst h1
      simp only [h0, if_false, if_pos rfl]
      simpa using mersenneReduce_modEq base E
    · simp only [h0, h1, if_false]
      calc mersennePowModLoop E 64 1 (mersenneReduce base E) e
          ≡ 1 * (mersenneReduce base E) ^ e [MOD 2 ^ E - 1] :=
            mersennePowModLoop_modEq E 64 e 1 (mersenneReduce base E) he
        _ = (mersenneReduce base E) ^ e := one_mul _
        _ ≡ base ^ e [MOD 2 ^ E - 1] := (mersenneReduce_modEq base E).pow e

/-! ### Lemmas: residue codec -/

theorem convertToGMP_eq_ofDigits (l : List Nat) :
    convertToGMP l = Nat.ofDigits (2 ^ 32) l := by
  induction l with
  | nil => rfl
  | cons w t ih =>
    show w + 2 ^ 32 * convertToGMP t = _
    rw [Nat.ofDigits_cons, ih]

theorem ofDigits_range_map (b x : Nat) :
    ∀ n, Nat.ofDigits b ((List.range n).map fun i => x / b ^ i % b) = x % b ^ n := by
  intro n
  induction n with
  | zero => simp [Nat.mod_one]
  | succ n ih =>
    rw [List.range_succ, List.map_append, Nat.ofDigits_append, ih]
    simp only [List.map_cons, List.map_nil, List.length_map, List.length_range,
      Nat.ofDigits_singleton]
    rw [pow_succ, Nat.mod_mul]

theorem convertFromGMP_length (E x : Nat) :
    (convertFromGMP E x).length = (E + 31) / 32 := by
  simp [convertFromGMP]

theorem convertFromGMP_words_lt (E x : Nat) :
    ∀ w ∈ convertFromGMP E x, w < 2 ^ 32 := by
  intro w hw
  simp only [convertFromGMP, List.mem_map] at hw
  obtain ⟨i, _, rfl⟩ := hw
  exact Nat.mod_lt _ (by norm_num)

theorem convert_roundTrip (E x : Nat) (hx : x < 2 ^ E) :
    convertToGMP (convertFromGMP E x) = x := by
  have hmap : convertFromGMP E x
      = (List.range ((E + 31) / 32)).map fun i => x / (2 ^ 32) ^ i % 2 ^ 32 := by
    unfold convertFromGMP
    refine List.map_congr_left ?_
    intro i _
    rw [pow_mul]
  rw [convertToGMP_eq_ofDigits, hmap, ofDigits_range_map]
  have hE : E ≤ 32 * ((E + 31) / 32) := by omega
  have hlt : x < (2 ^ 32) ^ ((E + 31) / 32) := by
    rw [← pow_mul]
    exact lt_of_lt_of_le hx (Nat.pow_le_pow_right (by norm_num) hE)
  exact Nat.mod_eq_of_lt hlt

/-! ### Lemmas: CRC-32 error detection -/

theorem crc32BitStep_lt {c : Nat} (hc : c < 2 ^ 32) : crc32BitStep c < 2 ^ 32 := by
  unfold crc32BitStep crc32Poly
  split
  · exact Nat.xor_lt_two_pow (by omega) (by norm_num)
  · omega

theorem crc32BitStep_inj {c c' : Nat} (hc : c < 2 ^ 32) (hc' : c' < 2 ^ 32)
    (h : crc32BitStep c = crc32BitStep c') : c = c' := by
  unfold crc32BitStep crc32Poly at h
  by_cases h1 : c % 2 = 1 <;> by_cases h2 : c' % 2 = 1
  · rw [if_pos h1, if_pos h2] at h
    have h3 := Nat.xor_left_inj.mp h
    omega
  · rw [if_pos h1, if_neg h2] at h
    exfalso
    have hb : ((c / 2) ^^^ 0xEDB88320).testBit 31 = true := by
      rw [Nat.testBit_xor, Nat.testBit_lt_two_pow (show c / 2 < 2 ^ 31 by omega)]
      decide
    rw [h, Nat.testBit_lt_two_pow (show c' / 2 < 2 ^ 31 by omega)] at hb
    exact Bool.noConfusion hb
  · rw [if_neg h1, if_pos h2] at h
    exfalso
    have hb : ((c' / 2) ^^^ 0xEDB88320).testBit 31 = true := by
      rw [Nat.testBit_xor, Nat.testBit_lt_two_pow (show c' / 2 < 2 ^ 31 by omega)]
      decide
    rw [← h, Nat.testBit_lt_two_pow (show c / 2 < 2 ^ 31 by omega)] at hb
    exact Bool.noConfusion hb
  · rw [if_neg h1, if_neg h2] at h
    omega

theorem crc32Bits_lt : ∀ (n : Nat) {c : Nat}, c < 2 ^ 32 → crc32Bits n c < 2 ^ 32 := by
  intro n
  induction n with
  | zero => intro c hc; exact hc
  | succ n ih => intro c hc; exact ih (crc32BitStep_lt hc)

theorem crc32Bits_inj : ∀ (n : Nat) {c c' : Nat}, c < 2 ^ 32 → c' < 2 ^ 32 →
    crc32Bits n c = crc32Bits n c' → c = c' := by
  intro n
  induction n with
  | zero => intro c c' _ _ h; exact h
  | succ n ih =>
    intro c c' hc hc' h
    exact crc32BitStep_inj hc hc'
      (ih (crc32BitStep_lt hc) (crc32BitStep_lt hc') h)

theorem crc32ByteStep_lt {c b : Nat} (hc : c < 2 ^ 32) (hb : b < 2 ^ 32) :
    crc32ByteStep c b < 2 ^ 32 :=
  crc32Bits_lt 8 (Nat.xor_lt_two_pow hc hb)

theorem crc32ByteStep_injB {c b b' : Nat} (hc : c < 2 ^ 32) (hb : b < 2 ^ 32)
    (hb' : b' < 2 ^ 32) (h : crc32ByteStep c b = crc32ByteStep c b') : b = b' :=
  Nat.xor_right_inj.mp
    (crc32Bits_inj 8 (Nat.xor_lt_two_pow hc hb) (Nat.xor_lt_two_pow hc hb') h)

theorem crc32Run_lt : ∀ (bs : List Nat) {c : Nat}, c < 2 ^ 32 →
    (∀ b ∈ bs, b < 256) → crc32Run c bs < 2 ^ 32 := by
  intro bs
  induction bs with
  | nil => intro c hc _; exact hc
  | cons b bs ih =>
    intro c hc hb
    have hb0 : b < 256 := hb b (List.mem_cons_self b bs)
    have hrest : ∀ a ∈ bs, a < 256 := fun a ha => hb a (List.mem_cons_of_mem b ha)
    exact ih (crc32ByteStep_lt hc (by omega)) hrest

theorem crc32Run_injC : ∀ (bs : List Nat) {c c' : Nat}, c < 2 ^ 32 → c' < 2 ^ 32 →
    (∀ b ∈ bs, b < 256) → crc32Run c bs = crc32Run c' bs → c = c' := by
  intro bs
  induction bs with
  | nil => intro c c' _ _ _ h; exact h
  | cons b bs ih =>
    intro c c' hc hc' hb h
    have hb0 : b < 256 := hb b (List.mem_cons_self b bs)
    have hrest : ∀ a ∈ bs, a < 256 := fun a ha => hb a (List.mem_cons_of_mem b ha)
    have hstep : crc32ByteStep c b = crc32ByteStep c' b :=
      ih (crc32ByteStep_lt hc (by omega)) (crc32ByteStep_lt hc' (by omega)) hrest h
    exact Nat.xor_left_inj.mp
      (crc32Bits_inj 8 (Nat.xor_lt_two_pow hc (by omega))
        (Nat.xor_lt_two_pow hc' (by omega)) hstep)

theorem crc32Run_decompose (c : Nat) (bs : List Nat) (i : Nat) (hi : i < bs.length) :
    crc32Run c bs
      = crc32Run (crc32ByteStep (crc32Run c (bs.take i)) (bs.get ⟨i, hi⟩))
          (bs.drop (i + 1)) := by
  conv_lhs => rw [← List.take_append_drop i bs]
  rw [show bs.drop i = bs.get ⟨i, hi⟩ :: bs.drop (i + 1) from by
    rw [List.get_eq_getElem]; exact (List.getElem_cons_drop bs i hi).symm]
  unfold crc32Run
  rw [List.foldl_append]
  rfl

theorem crc32_set_ne (bs : List Nat) (i : Nat) (b' : Nat) (hi : i < bs.length)
    (hbs : ∀ b ∈ bs, b < 256) (hb' : b' < 256) (hne : b' ≠ bs.get ⟨i, hi⟩) :
    crc32 (bs.set i b') ≠ crc32 bs := by
  intro hEq
  unfold crc32 at hEq
  have hrun : crc32Run 0xFFFFFFFF (bs.set i b') = crc32Run 0xFFFFFFFF bs :=
    Nat.xor_left_inj.mp hEq
  have hset : bs.set i b' = bs.take i ++ b' :: bs.drop (i + 1) :=
    List.set_eq_take_cons_drop b' hi
  have hiset : i < (bs.set i b').length := by
    rw [List.length_set]; exact hi
  have hget : (bs.set i b').get ⟨i, hiset⟩ = b' := by
    rw [List.get_eq_getElem]
    exact List.getElem_set_self hiset
  have htake : (bs.set i b').take i = bs.take i := by
    rw [List.set_take]
    apply List.set_eq_of_length_le
    rw [List.length_take]
    omega
  have hdrop : (bs.set i b').drop (i + 1) = bs.drop (i + 1) := by
    rw [hset, show bs.take i ++ b' :: bs.drop (i + 1)
        = (bs.take i ++ [b']) ++ bs.drop (i + 1) from by simp]
    exact List.drop_left' (by simp [List.length_take]; omega)
  have hd1 := crc32Run_decompose 0xFFFFFFFF bs i hi
  have hd2 := crc32Run_decompose 0xFFFFFFFF (bs.set i b') i hiset
  rw [hd1, hd2, hget, htake, hdrop] at hrun
  have hmidlt : crc32Run 0xFFFFFFFF (bs.take i) < 2 ^ 32 :=
    crc32Run_lt _ (by norm_num) (fun b hb => hbs b (List.mem_of_mem_take hb))
  have hbi : bs.get ⟨i, hi⟩ < 256 := hbs _ (bs.get_mem i hi)
  have hdropBytes : ∀ b ∈ bs.drop (i + 1), b < 256 :=
    fun b hb => hbs b (List.mem_of_mem_drop hb)
  have hstep : crc32ByteStep (crc32Run 0xFFFFFFFF (bs.take i)) b'
      = crc32ByteStep (crc32Run 0xFFFFFFFF (bs.take i)) (bs.get ⟨i, hi⟩) :=
    crc32Run_injC _ (crc32ByteStep_lt hmidlt (by omega))
      (crc32ByteStep_lt hmidlt (by omega)) hdropBytes hrun
  exact hne (crc32ByteStep_injB hmidlt (by omega) (by omega) hstep)

/-! ### Lemmas: snapshot byte codec and load/save -/

theorem bytesOfWord_lt (w : Nat) : ∀ b ∈ bytesOfWord w, b < 256 := by
  intro b hb
  simp only [bytesOfWord, List.mem_cons, List.not_mem_nil, or_false] at hb
  rcases hb with rfl | rfl | rfl | rfl <;> exact Nat.mod_lt _ (by norm_num)

theorem bytesOfWords_lt (ws : List Nat) : ∀ b ∈ bytesOfWords ws, b < 256 := by
  intro b hb
  simp only [bytesOfWords, List.mem_flatten, List.mem_map] at hb
  obtain ⟨l, ⟨w, _, rfl⟩, hbl⟩ := hb
  exact bytesOfWord_lt w b hbl

theorem bytesOfWords_length (ws : List Nat) : (bytesOfWords ws).length = 4 * ws.length := by
  induction ws with
  | nil => rfl
  | cons w t ih =>
    show (bytesOfWord w ++ bytesOfWords t).length = _
    rw [List.length_append, ih]
    show 4 + 4 * t.length = 4 * (t.length + 1)
    omega

theorem wordOfBytes4_bytesOfWord {w : Nat} (hw : w < 2 ^ 32) :
    wordOfBytes4 (w % 256) (w / 256 % 256) (w / 256 ^ 2 % 256) (w / 256 ^ 3 % 256) = w := by
  unfold wordOfBytes4
  norm_num at hw ⊢
  omega

theorem wordsOfBytes_bytesOfWords : ∀ (ws : List Nat), (∀ w ∈ ws, w < 2 ^ 32) →
    wordsOfBytes (bytesOfWords ws) = ws := by
  intro ws
  induction ws with
  | nil => intro _; rfl
  | cons w t ih =>
    intro hw
    show wordOfBytes4 (w % 256) (w / 256 % 256) (w / 256 ^ 2 % 256) (w / 256 ^ 3 % 256)
        :: wordsOfBytes (bytesOfWords t) = w :: t
    rw [wordOfBytes4_bytesOfWord (hw w (List.mem_cons_self w t)),
      ih (fun a ha => hw a (List.mem_cons_of_mem w ha))]

theorem crc32_lt (bs : List Nat) (h : ∀ b ∈ bs, b < 256) : crc32 bs < 2 ^ 32 :=
  Nat.xor_lt_two_pow (crc32Run_lt bs (by norm_num) h) (by norm_num)

theorem loadSnapshot_cons (E power k c0 c1 c2 c3 : Nat) (rest : List Nat)
    (hk : isInPoints E power k = true) :
    loadSnapshot E power k (c0 :: c1 :: c2 :: c3 :: rest)
      = (if rest.length < 4 * ((E + 31) / 32) then .error .shortDataRead
         else if crc32 (rest.take (4 * ((E + 31) / 32))) ≠ wordOfBytes4 c0 c1 c2 c3
           then .error .crcMismatch
         else .ok (wordsOfBytes (rest.take (4 * ((E + 31) / 32))))) := by
  unfold loadSnapshot
  rw [hk]
  simp

theorem loadSnapshot_notInPoints (E power k : Nat) (file : List Nat)
    (h : isInPoints E power k = false) :
    loadSnapshot E power k file = .error .notCheckpoint := by
  unfold loadSnapshot
  rw [h]
  simp

theorem loadSnapshot_short (E power k : Nat) (file : List Nat)
    (h : file.length < 4) (hk : isInPoints E power k = true) :
    loadSnapshot E power k file = .error .shortCrcRead := by
  rcases file with _ | ⟨a, _ | ⟨b, _ | ⟨c, _ | ⟨d, r⟩⟩⟩⟩
  · unfold loadSnapshot; rw [hk]; rfl
  · unfold loadSnapshot; rw [hk]; rfl
  · unfold loadSnapshot; rw [hk]; rfl
  · unfold loadSnapshot; rw [hk]; rfl
  · simp only [List.length_cons] at h; omega

theorem loadSnapshot_roundTrip (E power k : Nat) (words garbage : List Nat)
    (hk : isInPoints E power k = true) (hlen : words.length = (E + 31) / 32)
    (hw : ∀ w ∈ words, w < 2 ^ 32) :
    loadSnapshot E power k
      (bytesOfWord (crc32 (bytesOfWords words)) ++ (bytesOfWords words ++ garbage))
      = .ok words := by
  have hcrclt : crc32 (bytesOfWords words) < 2 ^ 32 :=
    crc32_lt _ (bytesOfWords_lt words)
  have hcons : bytesOfWord (crc32 (bytesOfWords words)) ++ (bytesOfWords words ++ garbage)
      = crc32 (bytesOfWords words) % 256
        :: crc32 (bytesOfWords words) / 256 % 256
        :: crc32 (bytesOfWords words) / 256 ^ 2 % 256
        :: crc32 (bytesOfWords words) / 256 ^ 3 % 256
        :: (bytesOfWords words ++ garbage) := rfl
  rw [hcons, loadSnapshot_cons E power k _ _ _ _ _ hk]
  have hblen : (bytesOfWords words).length = 4 * ((E + 31) / 32) := by
    rw [bytesOfWords_length, hlen]
  have hrlen : ¬ ((bytesOfWords words ++ garbage).length < 4 * ((E + 31) / 32)) := by
    rw [List.length_append, hblen]
    omega
  rw [if_neg hrlen]
  have htake : (bytesOfWords words ++ garbage).take (4 * ((E + 31) / 32))
      = bytesOfWords words := List.take_left' hblen
  rw [htake, wordOfBytes4_bytesOfWord hcrclt]
  rw [if_neg (by simp)]
  rw [wordsOfBytes_bytesOfWords words hw]

theorem loadSnapshot_corrupt (E power k : Nat) (file ws : List Nat) (i b' : Nat)
    (hok : loadSnapshot E power k file = .ok ws)
    (hi4 : i < 4 + 4 * ((E + 31) / 32)) (hilen : i < file.length)
    (hbytes : ∀ b ∈ file, b < 256) (hb' : b' < 256)
    (hne : b' ≠ file.get ⟨i, hilen⟩) :
    loadSnapshot E power k (file.set i b') = .error .crcMismatch := by
  by_cases hk : isInPoints E power k = true
  case neg =>
    have hkf : isInPoints E power k = false := by
      cases hx : isInPoints E power k
      · rfl
      · exact absurd hx hk
    rw [loadSnapshot_notInPoints E power k file hkf] at hok
    exact absurd hok (by simp)
  rcases file with _ | ⟨b0, file⟩
  · rw [loadSnapshot_short E power k _ (by simp) hk] at hok; exact absurd hok (by simp)
  rcases file with _ | ⟨b1, file⟩
  · rw [loadSnapshot_short E power k _ (by simp) hk] at hok; exact absurd hok (by simp)
  rcases file with _ | ⟨b2, file⟩
  · rw [loadSnapshot_short E power k _ (by simp) hk] at hok; exact absurd hok (by simp)
  rcases file with _ | ⟨b3, rest⟩
  · rw [loadSnapshot_short E power k _ (by simp) hk] at hok; exact absurd hok (by simp)
  rw [loadSnapshot_cons E power k b0 b1 b2 b3 rest hk] at hok
  by_cases hshort : rest.length < 4 * ((E + 31) / 32)
  · rw [if_pos hshort] at hok; exact absurd hok (by simp)
  rw [if_neg hshort] at hok
  by_cases hmis : crc32 (rest.take (4 * ((E + 31) / 32))) ≠ wordOfBytes4 b0 b1 b2 b3
  · rw [if_pos hmis] at hok; exact absurd hok (by simp)
  rw [if_neg hmis] at hok
  have hcrc : crc32 (rest.take (4 * ((E + 31) / 32))) = wordOfBytes4 b0 b1 b2 b3 := by
    by_contra hcon
    exact hmis hcon
  have hb0 : b0 < 256 := hbytes b0 (by simp)
  have hb1 : b1 < 256 := hbytes b1 (by simp)
  have hb2 : b2 < 256 := hbytes b2 (by simp)
  have hb3 : b3 < 256 := hbytes b3 (by simp)
  have hrestBytes : ∀ b ∈ rest, b < 256 := by
    intro b hb
    exact hbytes b (by simp [hb])
  by_cases hi : i < 4
  · interval_cases i
    · have hne0 : b' ≠ b0 := hne
      show loadSnapshot E power k (b' :: b1 :: b2 :: b3 :: rest) = _
      rw [loadSnapshot_cons E power k b' b1 b2 b3 rest hk, if_neg hshort, if_pos ?_]
      rw [hcrc]
      unfold wordOfBytes4
      omega
    · have hne1 : b' ≠ b1 := hne
      show loadSnapshot E power k (b0 :: b' :: b2 :: b3 :: rest) = _
      rw [loadSnapshot_cons E power k b0 b' b2 b3 rest hk, if_neg hshort, if_pos ?_]
      rw [hcrc]
      unfold wordOfBytes4
      omega
    · have hne2 : b' ≠ b2 := hne
      show loadSnapshot E power k (b0 :: b1 :: b' :: b3 :: rest) = _
      rw [loadSnapshot_cons E power k b0 b1 b' b3 rest hk, if_neg hshort, if_pos ?_]
      rw [hcrc]
      unfold wordOfBytes4
      omega
    · have hne3 : b' ≠ b3 := hne
      show loadSnapshot E power k (b0 :: b1 :: b2 :: b' :: rest) = _
      rw [loadSnapshot_cons E power k b0 b1 b2 b' rest hk, if_neg hshort, if_pos ?_]
      rw [hcrc]
      unfold wordOfBytes4
      omega
  · obtain ⟨j, rfl⟩ : ∃ j, i = j + 4 := ⟨i - 4, by omega⟩
    have hj : j < 4 * ((E + 31) / 32) := by omega
    have hjrest : j < rest.length := by
      simp only [List.length_cons] at hilen
      omega
    have hset : (b0 :: b1 :: b2 :: b3 :: rest).set (j + 4) b'
        = b0 :: b1 :: b2 :: b3 :: rest.set j b' := rfl
    rw [hset, loadSnapshot_cons E power k b0 b1 b2 b3 _ hk]
    have hlenset : (rest.set j b').length = rest.length := List.length_set rest _ _
    rw [if_neg (by rw [hlenset]; exact hshort)]
    have htakeset : (rest.set j b').take (4 * ((E + 31) / 32))
        = (rest.take (4 * ((E + 31) / 32))).set j b' := List.set_take
    have hjbody : j < (rest.take (4 * ((E + 31) / 32))).length := by
      rw [List.length_take]
      omega
    have hbodyBytes : ∀ b ∈ rest.take (4 * ((E + 31) / 32)), b < 256 :=
      fun b hb => hrestBytes b (List.mem_of_mem_take hb)
    have hgetbody : (rest.take (4 * ((E + 31) / 32))).get ⟨j, hjbody⟩
        = rest.get ⟨j, hjrest⟩ := by
      rw [List.get_eq_getElem, List.get_eq_getElem]
      exact List.getElem_take rest
    have hnebody : b' ≠ (rest.take (4 * ((E + 31) / 32))).get ⟨j, hjbody⟩ := by
      rw [hgetbody]
      have hgetfile : (b0 :: b1 :: b2 :: b3 :: rest).get ⟨j + 4, hilen⟩
          = rest.get ⟨j, hjrest⟩ := by
        rw [List.get_eq_getElem, List.get_eq_getElem]
        rfl
      rw [← hgetfile]
      exact hne
    have hcrcne := crc32_set_ne (rest.take (4 * ((E + 31) / 32))) j b'
      hjbody hbodyBytes hb' hnebody
    rw [htakeset, if_pos (by rw [hcrc] at hcrcne; exact hcrcne)]

/-! ### Claim theorems: checkpoint schedule (C1, C7) -/

set_option maxRecDepth 40000

/-- Claim C1, counterexample: the claim quantifies over every odd exponent
and every power in `[2, 12]`, but for `E = 521`, `power = 7` the spans sum to
522, so the sorted point array contains `522 > E` and its largest element is
not `E`. -/
theorem schedule_c1_counterexample :
    (521 % 2 = 1 ∧ 2 ≤ 7 ∧ 7 ≤ 12) ∧
    522 ∈ proofPoints 521 7 ∧ ¬ (∀ x ∈ proofPoints 521 7, x ≤ 521) := by decide

/-- Claim C1, amended: for every odd exponent `E` and `power ∈ [2, 12]` such
that the `power` spans sum to at most `E`, the constructed point array has
exactly `2 ^ power` entries (before the sentinel), is sorted ascending, its
largest element is `E`, and `isInPoints E power k` agrees with membership in
the array for every `k ∈ [0, E]`. -/
theorem schedule_c1_amended (E power : Nat) (hodd : E % 2 = 1)
    (hp2 : 2 ≤ power) (hp12 : power ≤ 12) (hsum : (spans E power).sum ≤ E) :
    (proofPoints E power).length = 2 ^ power ∧
    List.Sorted (· ≤ ·) (proofPoints E power) ∧
    E ∈ proofPoints E power ∧
    (∀ x ∈ proofPoints E power, x ≤ E) ∧
    (∀ k, k ≤ E → (isInPoints E power k = true ↔ k ∈ proofPoints E power)) := by
  have hE : 1 ≤ E := by omega
  have hperm : (proofPoints E power).Perm (E :: (pointsLevels E power).tail) :=
    List.perm_insertionSort _ _
  obtain ⟨t, ht⟩ := pointsLevels_eq_cons E power
  have htail : (pointsLevels E power).tail = t := by rw [ht]; rfl
  have hboundAll : ∀ x ∈ proofPoints E power, x ≤ E := by
    intro x hx
    rw [hperm.mem_iff] at hx
    rcases List.mem_cons.mp hx with rfl | hx2
    · exact le_refl x
    · have hxL : x ∈ pointsLevels E power := by
        rw [ht]
        exact List.mem_cons_of_mem _ (htail ▸ hx2)
      have hsub := (mem_pointsLevels E power x).mp hxL
      exact le_trans (isSubSum_le_sum _ x hsub) hsum
  refine ⟨?_, ?_, ?_, hboundAll, ?_⟩
  · rw [hperm.length_eq]
    have hlen := pointsLevels_length E power
    have hp1 : 1 ≤ 2 ^ power := Nat.one_le_two_pow
    simp only [List.length_cons, List.length_tail]
    omega
  · exact List.sorted_insertionSort _ _
  · rw [hperm.mem_iff]
    exact List.mem_cons_self _ _
  · intro k hk
    constructor
    · intro hT
      by_cases hkE : k = E
      · rw [hperm.mem_iff]
        exact hkE ▸ List.mem_cons_self _ _
      · unfold isInPoints at hT
        rw [if_neg hkE] at hT
        obtain ⟨m, hm, hmpos, hk0⟩ :=
          walkSpans_sound (spans E power) (spans_pos E hE power) k 0 hT
        have hkm : k = m := by omega
        subst hkm
        have hkL : k ∈ pointsLevels E power := (mem_pointsLevels E power k).mpr hm
        rw [ht] at hkL
        rcases List.mem_cons.mp hkL with rfl | hkt
        · omega
        · rw [hperm.mem_iff]
          exact List.mem_cons_of_mem _ (htail ▸ hkt)
    · intro hM
      rw [hperm.mem_iff] at hM
      rcases List.mem_cons.mp hM with rfl | hM2
      · unfold isInPoints
        rw [if_pos rfl]
      · have hM3 : k ∈ t := htail ▸ hM2
        have hkL : k ∈ pointsLevels E power := by
          rw [ht]
          exact List.mem_cons_of_mem _ hM3
        have hkpos : 0 < k :=
          pointsLevels_tail_pos E hE power k (htail.symm ▸ hM3)
        have hsub : IsSubSum (spans E power) k := (mem_pointsLevels E power k).mp hkL
        unfold isInPoints
        by_cases hkE : k = E
        · rw [if_pos hkE]
        · rw [if_neg hkE]
          exact walkSpans_complete (spans E power)
            (tailBounded_spans E power hsum) k k 0 hsub hkpos (by omega)

/-- Claim C1, witness: the amended theorem applied at `E = 521`,
`power = 3`, whose spans (261, 131, 66) sum to 458 ≤ 521. -/
theorem schedule_c1_witness :
    (521 % 2 = 1 ∧ 2 ≤ 3 ∧ 3 ≤ 12 ∧ (spans 521 3).sum ≤ 521) ∧
    ((proofPoints 521 3).length = 2 ^ 3 ∧
     List.Sorted (· ≤ ·) (proofPoints 521 3) ∧
     521 ∈ proofPoints 521 3 ∧
     (∀ x ∈ proofPoints 521 3, x ≤ 521) ∧
     (∀ k, k ≤ 521 → (isInPoints 521 3 k = true ↔ k ∈ proofPoints 521 3))) :=
  ⟨⟨rfl, by omega, by omega, by decide⟩,
   schedule_c1_amended 521 3 rfl (by omega) (by omega) (by decide)⟩

/-- Claim C7, counterexample: for `E = 521`, `power = 3` the constructor's
sorted points are not `{65, 130, 196, 261, 326, 391, 456, 521}`; in
particular `65` is not a checkpoint. -/
theorem schedule_c7_counterexample :
    proofPoints 521 3 ≠ [65, 130, 196, 261, 326, 391, 456, 521] ∧
    isInPoints 521 3 65 = false ∧
    65 ∉ proofPoints 521 3 := by decide

/-- Claim C7, amended: for `E = 521`, `power = 3` the sorted point array is
exactly `{66, 131, 197, 261, 327, 392, 458, 521}`, and exhaustive
`isInPoints` over `[0, 521]` accepts exactly these eight values. -/
theorem schedule_c7_amended :
    proofPoints 521 3 = [66, 131, 197, 261, 327, 392, 458, 521] ∧
    (∀ k, k ≤ 521 → (isInPoints 521 3 k = true ↔
      k ∈ [66, 131, 197, 261, 327, 392, 458, 521])) := by decide

/-! ### Claim theorems: Mersenne arithmetic (C2, C3) -/

/-- Claim C2, counterexample: `mersenneReduce (2^127) 127` returns `2^127`
unchanged (its bit length is `E + 1`), which is neither `1` nor below
`2^127 - 1`. -/
theorem mersenneReduce_c2_counterexample :
    mersenneReduce (2 ^ 127) 127 = 2 ^ 127 ∧
    mersenneReduce (2 ^ 127) 127 ≠ 1 ∧
    ¬ mersenneReduce (2 ^ 127) 127 < 2 ^ 127 - 1 := by decide

/-- Claim C2, amended: `mersenneReduce x E` is congruent to `x` modulo
`2^E - 1` for every `x` and `E`, but the result need not be reduced below
`2^E - 1`: any input of bit length at most `E + 1` is returned unchanged, so
`mersenneReduce (2^127) 127 = 2^127`. -/
theorem mersenneReduce_c2_amended :
    (∀ x E, mersenneReduce x E ≡ x [MOD 2 ^ E - 1]) ∧
    mersenneReduce (2 ^ 127) 127 = 2 ^ 127 :=
  ⟨mersenneReduce_modEq, by decide⟩

/-- Claim C3, counterexample: `mersennePowMod 3 2 3 = 9`, while the reference
value `3^2 mod (2^3 - 1)` is `2`; the result is congruent but not equal. -/
theorem mersennePowMod_c3_counterexample :
    mersennePowMod 3 2 3 = 9 ∧ 3 ^ 2 % (2 ^ 3 - 1) = 2 ∧ (9 : Nat) ≠ 2 := by decide

/-- Claim C3, amended: for every base, every 64-bit exponent `e` and every
`E`, `mersennePowMod base e E` is congruent to `base ^ e` modulo `2^E - 1`
(not necessarily equal to the canonical representative), returns `1` when
`e = 0` and `mersenneReduce base E` when `e = 1`. -/
theorem mersennePowMod_c3_amended (base e E : Nat) (he : e < 2 ^ 64) :
    mersennePowMod base e E ≡ base ^ e [MOD 2 ^ E - 1] ∧
    (e = 0 → mersennePowMod base e E = 1) ∧
    (e = 1 → mersennePowMod base e E = mersenneReduce base E) := by
  refine ⟨mersennePowMod_modEq base e E he, ?_, ?_⟩
  · rintro rfl
    rfl
  · rintro rfl
    rfl

/-- Claim C3, witness: the amended theorem at `base = 3`, `e = 5`, `E = 3`
(the code returns 12, which is congruent to `3^5 = 243 ≡ 5` modulo 7). -/
theorem mersennePowMod_c3_witness :
    5 < 2 ^ 64 ∧
    (mersennePowMod 3 5 3 ≡ 3 ^ 5 [MOD 2 ^ 3 - 1] ∧
     (5 = 0 → mersennePowMod 3 5 3 = 1) ∧
     (5 = 1 → mersennePowMod 3 5 3 = mersenneReduce 3 3)) :=
  ⟨by decide, mersennePowMod_c3_amended 3 5 3 (by decide)⟩

/-! ### Claim theorems: ZeroMiddle check (C4) and codec (C5) -/

/-- Claim C4 (code bug): for every `E ≥ 1`, a zero middle converts to a
non-empty all-zero word vector, so the guard that is supposed to reject a
zero middle (`levelResult.empty()`) never fires: `computeProof` appends the
zero middle instead of halting. -/
theorem zeroMiddle_c4_not_detected (E : Nat) (hE : 1 ≤ E) :
    zeroMiddleCheckFires E 0 = false ∧ convertToGMP (convertFromGMP E 0) = 0 := by
  constructor
  · unfold zeroMiddleCheckFires
    have hlen : (convertFromGMP E 0).length = (E + 31) / 32 := convertFromGMP_length E 0
    cases hcase : convertFromGMP E 0 with
    | nil =>
      rw [hcase] at hlen
      simp at hlen
      omega
    | cons a l => rfl
  · exact convert_roundTrip E 0 (pow_pos (by norm_num) E)

/-- Claim C4, witness: at `E = 33` the converted zero middle is the two-word
vector `[0, 0]`, and the guard does not fire. -/
theorem zeroMiddle_c4_witness :
    zeroMiddleCheckFires 33 0 = false ∧ convertToGMP (convertFromGMP 33 0) = 0 :=
  zeroMiddle_c4_not_detected 33 (by omega)

/-- Claim C5: for every `E ≥ 1` and `0 ≤ x < 2^E`, `convertFromGMP`
produces exactly `⌈E/32⌉ = (E + 31) / 32` 32-bit words (zero-padded), and
`convertToGMP` of those words recovers `x` exactly. -/
theorem codec_c5_roundTrip (E x : Nat) (hE : 1 ≤ E) (hx : x < 2 ^ E) :
    (convertFromGMP E x).length = (E + 31) / 32 ∧
    (∀ w ∈ convertFromGMP E x, w < 2 ^ 32) ∧
    convertToGMP (convertFromGMP E x) = x :=
  ⟨convertFromGMP_length E x, convertFromGMP_words_lt E x, convert_roundTrip E x hx⟩

/-- Claim C5, witness: the codec theorem at `E = 127`, `x = 2^127 - 1`
(the spec's scenario S3). -/
theorem codec_c5_witness :
    (1 ≤ 127 ∧ 2 ^ 127 - 1 < 2 ^ 127) ∧
    ((convertFromGMP 127 (2 ^ 127 - 1)).length = (127 + 31) / 32 ∧
     (∀ w ∈ convertFromGMP 127 (2 ^ 127 - 1), w < 2 ^ 32) ∧
     convertToGMP (convertFromGMP 127 (2 ^ 127 - 1)) = 2 ^ 127 - 1) :=
  ⟨⟨by omega, by decide⟩, codec_c5_roundTrip 127 (2 ^ 127 - 1) (by omega) (by decide)⟩

/-! ### Claim theorems: snapshot store (C6) -/

/-- Claim C6: `load(k)` fails when `k` is not a checkpoint; a saved snapshot
(4-byte CRC, then exactly `(E + 31) / 32` 32-bit words) loads back exactly
even with trailing garbage after the stored prefix; and corrupting any single
byte of the stored prefix of a loadable file makes `load` fail with a CRC
mismatch. -/
theorem loadSnapshot_c6_spec :
    (∀ E power k file, isInPoints E power k = false →
      loadSnapshot E power k file = .error .notCheckpoint) ∧
    (∀ E power k words, isInPoints E power k = true →
      saveSnapshot E power k words
        = some (bytesOfWord (crc32 (bytesOfWords words)) ++ bytesOfWords words)) ∧
    (∀ E power k words garbage, isInPoints E power k = true →
      words.length = (E + 31) / 32 → (∀ w ∈ words, w < 2 ^ 32) →
      loadSnapshot E power k
        (bytesOfWord (crc32 (bytesOfWords words)) ++ (bytesOfWords words ++ garbage))
        = .ok words) ∧
    (∀ E power k file ws i b', loadSnapshot E power k file = .ok ws →
      i < 4 + 4 * ((E + 31) / 32) → ∀ hi : i < file.length,
      (∀ b ∈ file, b < 256) → b' < 256 → b' ≠ file.get ⟨i, hi⟩ →
      loadSnapshot E power k (file.set i b') = .error .crcMismatch) := by
  refine ⟨loadSnapshot_notInPoints, ?_, loadSnapshot_roundTrip, ?_⟩
  · intro E power k words hk
    unfold saveSnapshot
    rw [hk]
    simp
  · intro E power k file ws i b' hok hi4 hi hbytes hb' hne
    exact loadSnapshot_corrupt E power k file ws i b' hok hi4 hi hbytes hb' hne

/-- Claim C6, witness: for `E = 33`, `power = 2`: loading non-checkpoint
iteration 7 fails; the saved snapshot of `[5, 7]` at `k = 33` loads back with
a trailing garbage byte; and flipping byte 5 of that file (a word byte) to
200 yields a CRC mismatch. -/
theorem loadSnapshot_c6_witness :
    loadSnapshot 33 2 7 [1, 2, 3] = .error .notCheckpoint ∧
    loadSnapshot 33 2 33
      (bytesOfWord (crc32 (bytesOfWords [5, 7])) ++ (bytesOfWords [5, 7] ++ [9]))
      = .ok [5, 7] ∧
    loadSnapshot 33 2 33
      ((bytesOfWord (crc32 (bytesOfWords [5, 7])) ++ (bytesOfWords [5, 7] ++ [9])).set 5 200)
      = .error .crcMismatch := by
  have h1 := loadSnapshot_c6_spec.1 33 2 7 [1, 2, 3] (by decide)
  have h2 := loadSnapshot_c6_spec.2.2.1 33 2 33 [5, 7] [9] (by decide) (by decide)
    (by decide)
  have h3 := loadSnapshot_c6_spec.2.2.2 33 2 33
    (bytesOfWord (crc32 (bytesOfWords [5, 7])) ++ (bytesOfWords [5, 7] ++ [9]))
    [5, 7] 5 200 h2 (by decide) (by decide) (by decide) (by decide) (by decide)
  exact ⟨h1, h2, h3⟩

/-! ### Claim theorems: backup manager (C8, C9, C10) -/

/-- Claim C8, counterexample: with the loop file holding the positive index 5
and the `.mers` file unreadable, `loadState` returns resume 5 and leaves `x`
untouched — the state is *not* treated as fresh (resume 0 with the seed). -/
theorem loadState_c8_counterexample :
    loadState "prp" (some 5) none [7, 7] = ⟨5, [7, 7]⟩ ∧
    (loadState "prp" (some 5) none [7, 7]).resume ≠ 0 ∧
    (loadState "prp" (some 5) none [7, 7]).x ≠ seedWords "prp" 2 := by decide

/-- Claim C8, amended: when the loop file is absent/empty/unparsable or holds
zero, `loadState` seeds `x` (all zeros, `x[0] = 3` for mode "prp", else 4)
and returns 0; when the loop file holds a positive index, the stored index is
returned — with the `.mers` contents read into `x` if readable, and with `x`
left unmodified (only a warning is printed) if the `.mers` file is
unreadable, not treated as fresh. -/
theorem loadState_c8_amended (mode : String) (mers : Option (List Nat))
    (x d : List Nat) (r : Nat) :
    loadState mode none mers x
      = ⟨0, (List.replicate x.length 0).set 0 (if mode = "prp" then 3 else 4)⟩ ∧
    loadState mode (some 0) mers x
      = ⟨0, (List.replicate x.length 0).set 0 (if mode = "prp" then 3 else 4)⟩ ∧
    (0 < r → loadState mode (some r) none x = ⟨r, x⟩) ∧
    (0 < r → loadState mode (some r) (some d) x = ⟨r, readInto x d⟩) := by
  refine ⟨rfl, rfl, ?_, ?_⟩
  · intro hr
    show (if 0 < r then BackupState.mk r x else ⟨0, seedWords mode x.length⟩) = _
    rw [if_pos hr]
  · intro hr
    show (if 0 < r then BackupState.mk r (readInto x d)
        else ⟨0, seedWords mode x.length⟩) = _
    rw [if_pos hr]

/-- Claim C8, witness: the amended theorem at mode "ll", `x = [7, 7]`,
`d = [1, 2, 3]`, `r = 5`. -/
theorem loadState_c8_witness :
    (loadState "ll" none none [7, 7]
      = ⟨0, (List.replicate 2 0).set 0 (if "ll" = "prp" then 3 else 4)⟩ ∧
     loadState "ll" (some 0) none [7, 7]
      = ⟨0, (List.replicate 2 0).set 0 (if "ll" = "prp" then 3 else 4)⟩ ∧
     (0 < 5 → loadState "ll" (some 5) none [7, 7] = ⟨5, [7, 7]⟩) ∧
     (0 < 5 → loadState "ll" (some 5) (some [1, 2, 3]) [7, 7]
        = ⟨5, readInto [7, 7] [1, 2, 3]⟩)) :=
  loadState_c8_amended "ll" none [7, 7] [1, 2, 3] 5

/-- Claim C9, counterexample: when the `.mers` write fails but the loop file
opens, `saveState` still advances the loop file to `iter + 1` — the snapshot
failure is only reported, not propagated, and the commit is partial. -/
theorem saveState_c9_counterexample :
    saveStateTrace false true [1] 9 = [SaveEvent.errMers, SaveEvent.writeLoop 10] ∧
    SaveEvent.writeLoop 10 ∈ saveStateTrace false true [1] 9 := by decide

/-- Claim C9, amended: the update sequence is always snapshot first, then
loop file; but a failed `.mers` write is only logged — the loop file is still
advanced to `iter + 1` whenever its own stream opens, and no error is
propagated to the caller. -/
theorem saveState_c9_amended (mersOk loopOk : Bool) (x : List Nat) (iter : Nat) :
    (saveStateTrace mersOk loopOk x iter).length = 2 ∧
    ((saveStateTrace mersOk loopOk x iter).head?.getD SaveEvent.errLoop).isMersEvent
      = true ∧
    ((saveStateTrace mersOk loopOk x iter).getLast?.getD SaveEvent.errMers).isLoopEvent
      = true ∧
    (loopOk = true →
      SaveEvent.writeLoop (iter + 1) ∈ saveStateTrace mersOk loopOk x iter) ∧
    (mersOk = false →
      SaveEvent.writeMers x ∉ saveStateTrace mersOk loopOk x iter) := by
  cases mersOk <;> cases loopOk <;>
    simp [saveStateTrace, SaveEvent.isMersEvent, SaveEvent.isLoopEvent]

/-- Claim C9, witness: the amended theorem at a failed `.mers` write and a
successful loop write, `x = [1]`, `iter = 9`. -/
theorem saveState_c9_witness :
    ((saveStateTrace false true [1] 9).length = 2 ∧
     ((saveStateTrace false true [1] 9).head?.getD SaveEvent.errLoop).isMersEvent
       = true ∧
     ((saveStateTrace false true [1] 9).getLast?.getD SaveEvent.errMers).isLoopEvent
       = true ∧
     (true = true → SaveEvent.writeLoop 10 ∈ saveStateTrace false true [1] 9) ∧
     (false = false → SaveEvent.writeMers [1] ∉ saveStateTrace false true [1] 9)) :=
  saveState_c9_amended false true [1] 9

/-- Claim C10: in the fresh-state branch of `loadState`, the seed is decided
solely by whether the mode string equals "prp": mode "prp" seeds 3, and every
other mode — including "pm1", not only Lucas-Lehmer — seeds 4. -/
theorem loadState_c10_seed (mode : String) (x : List Nat) (h : mode ≠ "prp") :
    (loadState mode none none x).x = (List.replicate x.length 0).set 0 4 ∧
    (loadState "prp" none none x).x = (List.replicate x.length 0).set 0 3 ∧
    (loadState "pm1" none none x).x = (List.replicate x.length 0).set 0 4 := by
  refine ⟨?_, ?_, ?_⟩
  · show seedWords mode x.length = _
    unfold seedWords
    rw [if_neg h]
  · show seedWords "prp" x.length = _
    unfold seedWords
    rw [if_pos rfl]
  · show seedWords "pm1" x.length = _
    unfold seedWords
    rw [if_neg (by decide)]

/-- Claim C10, witness: the seed theorem at mode "ll" (so both the "pm1" and
the non-"prp" conclusions are exercised on concrete input `x = [7, 7]`). -/
theorem loadState_c10_witness :
    ((loadState "ll" none none [7, 7]).x = (List.replicate 2 0).set 0 4 ∧
     (loadState "prp" none none [7, 7]).x = (List.replicate 2 0).set 0 3 ∧
     (loadState "pm1" none none [7, 7]).x = (List.replicate 2 0).set 0 4) :=
  loadState_c10_seed "ll" [7, 7] (by decide)

end PrMers
